import Mathlib

/-!
Verification of the Markov-chain engine of the robot chat bot.

This file shallowly embeds the two generations of the engine:

* the v1 engine in `robot.go`: `Filter` (learning a token sequence into the
  chain map) and `Walk` (the generation random walk), together with the
  chain map `map[string][]string`;
* the v2 tuple builder in `v2/brain/learn.go`: `tupleToks`, `Learn` and
  `Forget` over the `Tuple` record.

Modelling choices, shared by all definitions below:

* Go strings are Lean `String`s (lists of characters); the Go byte length
  `len(s)` is modelled by `goStrLen` (UTF-8 byte count).
* `strings.ToLower` applies Unicode simple case mapping character by
  character; `strLower` models the ASCII fragment of that mapping, which is
  the fragment all concrete tokens appearing in this development use (the
  sentinels `"\x00"`/`"\x01"`, the space separator, and ASCII words).
* The v1 chain map `map[string][]string`, which `Filter` only ever mutates
  through `c[word] = append(c[word], v)`, is modelled as an append log
  `ChainLog := List (String × String)` of (key, value) events; the Go slice
  stored under `key` is recovered by `lookupLog c key`, which preserves the
  per-key order and multiset of values exactly.  `Walk`, which only reads
  the map, is modelled directly over an arbitrary `String → List String`
  (Go's `nil` slice for a missing key is the empty list).
* `rand.Intn(len(ws))`, a uniformly distributed index into the occurrence
  slice, is modelled by an oracle `choices : ℕ → ℕ` of arbitrary naturals,
  reduced modulo the slice length by `sampleNext`; the unbounded `for` loop
  of `Walk` is modelled by the fuel-indexed `walkAux`, where `walkAux`
  returning `some` within fuel `f` means the loop finishes after at most
  `f` iteration steps — either by returning (`WalkResult.ret`) or by the
  runtime panic `Walk` hits when it slices `strings.Fields(...)[1:]` on a
  word with no fields (`WalkResult.panic`); `none` means the loop is still
  running.
-/

namespace Robot

/-- ASCII lowercasing of one character: the fragment of Go's
`unicode.ToLower` (simple case mapping) on code points below 128.
Characters outside `A`–`Z` are returned unchanged. -/
def lowerChar (c : Char) : Char :=
  if h : 65 ≤ c.toNat ∧ c.toNat ≤ 90 then
    ⟨⟨⟨c.toNat + 32, by omega⟩⟩, Or.inl (show c.toNat + 32 < 55296 by omega)⟩
  else c

/-- Models Go `strings.ToLower` (character-wise case mapping). -/
def strLower (s : String) : String := ⟨s.data.map lowerChar⟩

/-- Models Go `strings.Repeat s m`. -/
def repeatStr (s : String) : ℕ → String
  | 0 => ""
  | m + 1 => s ++ repeatStr s m

/-- Models Go `strings.Join l " "`. -/
def joinSp : List String → String
  | [] => ""
  | [w] => w
  | w :: ws => w ++ " " ++ joinSp ws

/-- Accumulator loop for `goFields`: splits a character list on runs of
spaces, dropping empty fields. -/
def fieldsAux : List Char → List Char → List String
  | [], acc => if acc = [] then [] else [⟨acc.reverse⟩]
  | c :: cs, acc =>
    if c = ' ' then
      (if acc = [] then fieldsAux cs [] else ⟨acc.reverse⟩ :: fieldsAux cs [])
    else fieldsAux cs (c :: acc)

/-- Models Go `strings.Fields` on the space-separated strings the engine
uses (Go also splits on other Unicode white space; the chain keys and walk
words of this program only ever use the space separator). -/
def goFields (s : String) : List String := fieldsAux s.data []

/-- Models Go `strings.TrimRight s " "`. -/
def trimRightSp (s : String) : String :=
  ⟨(s.data.reverse.dropWhile (fun c => c = ' ')).reverse⟩

/-- UTF-8 byte count of one character, as Go `len` counts string bytes. -/
def utf8Len (c : Char) : ℕ :=
  if c.toNat < 128 then 1
  else if c.toNat < 2048 then 2
  else if c.toNat < 65536 then 3
  else 4

/-- Models Go `len(s)` on a string: its UTF-8 byte length. -/
def goStrLen (s : String) : ℕ := (s.data.map utf8Len).sum

/-- The v2 `brain.Tuple` record.  The field `pfx` models the Go field
`Prefix` (the ordered window of `Order()` canonicalized tokens); `Suffix`
matches the Go field of the same name. -/
structure Tuple where
  pfx : List String
  Suffix : String
deriving DecidableEq

/-- Modelled from the spec: the v2 canonicalizer `ReduceEntropy` is called
by `tupleToks` but its definition is not among the sources.  The spec
(§4.2, §9) requires a deterministic, idempotent, total token normalization
that is the identity on the sentinel tokens and leaves the exact rule set
open; following the v1 engine, which canonicalizes with `strings.ToLower`,
it is modelled as lowercasing. -/
def ReduceEntropy (s : String) : String := strLower s

/-- One slide of the v2 prefix window, as built inside `tupleToks`:
`copy(q.Prefix, p.Prefix[1:]); q.Prefix[n-1] = ReduceEntropy(p.Suffix)`.
For a window of length `n ≥ 1` this drops the oldest entry and appends the
canonicalized previous suffix.  (For `n = 0` the Go code would panic on the
index `n-1`; `Learn`/`Forget` guarantee `n ≥ 1` before calling it.) -/
def chainPref (pre : List String) (suf : String) : List String :=
  pre.drop 1 ++ [ReduceEntropy suf]

/-- The loop body of `tupleToks`: `p` is the previously appended tuple,
each token `w` emits `q = {chainPref p, w}` and becomes the new `p`, and
the end of the token list emits the final tuple with the empty suffix. -/
def tupleToksGo (tt : List Tuple) (p : Tuple) : List String → List Tuple
  | [] => tt ++ [⟨chainPref p.pfx p.Suffix, ""⟩]
  | w :: ws =>
    tupleToksGo (tt ++ [⟨chainPref p.pfx p.Suffix, w⟩]) ⟨chainPref p.pfx p.Suffix, w⟩ ws

/-- The v2 tuple builder `tupleToks(tt, toks, n)`: starts from the all
sentinel window `{Prefix: make([]string, n)}` and folds `tupleToksGo` over
the tokens. -/
def tupleToks (tt : List Tuple) (toks : List String) (n : ℕ) : List Tuple :=
  tupleToksGo tt ⟨List.replicate n "", ""⟩ toks

/-- The v2 `brain.Learn` entry point.  `order` is the value returned by the
backend's `Order()` (a Go `int`, hence `Int` here).  `none` models the
panic taken when `order < 1`; `some tt` models the call
`l.Learn(ctx, meta, tt)` handing the built tuples to the backend. -/
def brainLearn (order : Int) (toks : List String) : Option (List Tuple) :=
  if order < 1 then none
  else some (tupleToks [] toks order.toNat)

/-- The v2 `brain.Forget` entry point.  `none` models the panic taken when
`order < 1`; `some (tag, tt)` models the call `l.Forget(ctx, tag, tt)`. -/
def brainForget (order : Int) (tag : String) (toks : List String) :
    Option (String × List Tuple) :=
  if order < 1 then none
  else some (tag, tupleToks [] toks order.toNat)

/-- Append log modelling the v1 chain map `map[string][]string`: one entry
per executed `c[key] = append(c[key], val)`. -/
abbrev ChainLog := List (String × String)

/-- Models the v1 map mutation `c[key] = append(c[key], val)` (the only way
`Filter` writes to the chain). -/
def capp (c : ChainLog) (key val : String) : ChainLog := c ++ [(key, val)]

/-- The Go slice `c[key]` recovered from the append log: the values
appended under `key`, oldest first (a missing key gives `[]`, as a Go `nil`
slice). -/
def lookupLog (c : ChainLog) (key : String) : List String :=
  (c.filter (fun p => p.1 == key)).map Prod.snd

/-- Key built in the first loop of `Filter` at index `i`:
`strings.Repeat "\x01 " (prefix-i) + strings.ToLower (strings.Join words[0:i] " ")`. -/
def rampKey (n : ℕ) (words : List String) (i : ℕ) : String :=
  repeatStr "\x01 " (n - i) ++ strLower (joinSp (words.take i))

/-- Key built in the second loop of `Filter` at index `i`:
`strings.ToLower (strings.Join words[i-prefix:i] " ")`. -/
def midKey (n : ℕ) (words : List String) (i : ℕ) : String :=
  strLower (joinSp ((words.drop (i - n)).take n))

/-- Key built by the final append of `Filter`:
`strings.ToLower (strings.Join words[len(words)-prefix:] " ")`. -/
def finalKey (n : ℕ) (words : List String) : String :=
  strLower (joinSp (words.drop (words.length - n)))

/-- First loop of `Filter` (`for i := 0; i < prefix; i++`), where `n`
models the global `prefix`.  `Sum.inl` is the early `return` taken when
`i >= len(words)` after recording the end sentinel; `Sum.inr` is falling
through to the second loop. -/
def loop1 (n : ℕ) (words : List String) (i : ℕ) (c : ChainLog) :
    ChainLog ⊕ ChainLog :=
  if i < n then
    if words.length ≤ i then Sum.inl (capp c (rampKey n words i) "\x00")
    else loop1 n words (i + 1) (capp c (rampKey n words i) (words.getD i ""))
  else Sum.inr c
termination_by n - i

/-- Second loop of `Filter` (`for i := prefix; i < len(words); i++`).
`Sum.inl (j, c)` is the `Filter(c, words[i+1:]); return` path taken when
the token at index `j` is empty and not last (the `Fin` carries the Go
bound `j < len(words)` that makes the recursion well defined); `Sum.inr`
is reaching the final append, by falling through or by `break`. -/
def loop2 (n : ℕ) (words : List String) (i : ℕ) (c : ChainLog) :
    (Fin words.length × ChainLog) ⊕ ChainLog :=
  if h : i < words.length then
    if words.getD i "" = "" then
      (if i < words.length - 1 then Sum.inl (⟨i, h⟩, c) else Sum.inr c)
    else loop2 n words (i + 1) (capp c (midKey n words i) (words.getD i ""))
  else Sum.inr c
termination_by words.length - i

/-- The v1 learning function `Filter(c, words)` of robot.go, with the
global `prefix` passed as `n`: the entry ramp loop, the sliding-window
loop (restarting on an interior empty token), and the final end-sentinel
append. -/
def Filter (n : ℕ) (c : ChainLog) (words : List String) : ChainLog :=
  match loop1 n words 0 c with
  | Sum.inl c' => c'
  | Sum.inr c' =>
    match loop2 n words n c' with
    | Sum.inl (j, c'') => Filter n c'' (words.drop (j.val + 1))
    | Sum.inr c'' => capp c'' (finalKey n words) "\x00"
termination_by words.length
decreasing_by
  have hj := j.isLt
  simp only [List.length_drop]
  omega

/-- State of the `Walk` loop: the current prefix window string `word`, the
accumulated output byte count `sum`, and the collected output tokens
`out` (the slice `s`). -/
structure WalkState where
  word : String
  sum : ℕ
  out : List String
deriving DecidableEq

/-- Initial `Walk` state for a starting prefix string. -/
def initWalk (word : String) : WalkState := ⟨word, 0, []⟩

/-- The sampled element `ws[rand.Intn(len(ws))]`: the oracle value `r` is
reduced to a uniform index into the occurrence slice. -/
def sampleNext (ws : List String) (r : ℕ) : String := ws.getD (r % ws.length) ""

/-- Outcome of a finished `Walk` loop: `ret s` is a normal return of the
joined output `s`; `panic` is the Go runtime panic raised when the word
update slices `strings.Fields(...)[1:]` on a zero-field word (slicing with
low bound 1 past a length-0 slice). -/
inductive WalkResult where
  | panic : WalkResult
  | ret : String → WalkResult
deriving DecidableEq

/-- One `word` update of `Walk`:
`strings.Join(append(strings.Fields(strings.TrimRight(word, " "))[1:], nextword), " ")`.
When the trimmed word has no fields, the Go slice expression
`strings.Fields(...)[1:]` panics (low bound 1 exceeds length 0); `none`
models that panic. -/
def updateWord (word nextword : String) : Option String :=
  if goFields (trimRightSp word) = [] then none
  else some (joinSp ((goFields (trimRightSp word)).drop 1 ++ [nextword]))

/-- The `Walk` loop of robot.go over an arbitrary chain map `c`, random
oracle `choices` (consumed at positions `k`, `k+1`, ...), and fuel: each
unit of fuel pays for one `sum < 400` check plus loop body.  `none` means
the loop is still running after `fuel` steps; `some (ret s)` means `Walk`
returned the joined output `s` within them; `some panic` means the word
update hit the Go slice-bound panic (a zero-field word).  In Go the
`sum`/`s` mutations of a `"\x01"`-free step precede the panicking word
assignment, but a panic discards them, so matching on `updateWord` before
the `"\x01"` test is observationally the same. -/
def walkAux (c : String → List String) (choices : ℕ → ℕ) :
    ℕ → ℕ → WalkState → Option WalkResult
  | 0, _, _ => none
  | fuel + 1, k, st =>
    if st.sum < 400 then
      let ws := c (strLower st.word)
      if ws = [] then some (WalkResult.ret (joinSp st.out))
      else
        let nextword := sampleNext ws (choices k)
        if nextword = "\x00" then some (WalkResult.ret (joinSp st.out))
        else
          match updateWord st.word nextword with
          | none => some WalkResult.panic
          | some word' =>
            if nextword = "\x01" then
              walkAux c choices fuel (k + 1) ⟨word', st.sum, st.out⟩
            else
              walkAux c choices fuel (k + 1)
                ⟨word', st.sum + goStrLen nextword + 1, st.out ++ [nextword]⟩
    else some (WalkResult.ret (joinSp st.out))

/-- A chain map on which `Walk` never terminates: the key `"\x01 \x01"`
(the order-2 start window after one slide) stores the single occurrence
`"\x01"`, which `Walk` skips without increasing `sum` while the window
slides back to the same key.  `Filter 2` produces exactly such entries
when learning a message whose tokens are the literal `"\x01"`. -/
def cexChain : String → List String :=
  fun key => if key = "\x01 \x01" then ["\x01"] else []

theorem lowerChar_idem (c : Char) : lowerChar (lowerChar c) = lowerChar c := by
  by_cases h : 65 ≤ c.toNat ∧ c.toNat ≤ 90
  · have h2 : (lowerChar c).toNat = c.toNat + 32 := by
      rw [lowerChar, dif_pos h]; rfl
    conv_lhs => rw [lowerChar]
    rw [dif_neg]
    rw [h2]
    omega
  · have hl : lowerChar c = c := by rw [lowerChar, dif_neg h]
    rw [hl]
    exact hl

theorem strLower_idem (s : String) : strLower (strLower s) = strLower s := by
  have key : ∀ l : List Char, (l.map lowerChar).map lowerChar = l.map lowerChar := by
    intro l
    induction l with
    | nil => rfl
    | cons c cs ih => simp only [List.map_cons, lowerChar_idem, ih]
  show (⟨(s.data.map lowerChar).map lowerChar⟩ : String) = ⟨s.data.map lowerChar⟩
  rw [key]

theorem strLower_ne_empty {s : String} (h : s ≠ "") : strLower s ≠ "" := by
  cases s with
  | mk data =>
    cases data with
    | nil => exact absurd rfl h
    | cons c cs =>
      intro hc
      have := congrArg String.data hc
      simp [strLower] at this

theorem tupleToksGo_acc (ws : List String) :
    ∀ (p : Tuple) (tt : List Tuple), tupleToksGo tt p ws = tt ++ tupleToksGo [] p ws := by
  induction ws with
  | nil => intro p tt; simp [tupleToksGo]
  | cons w ws ih =>
    intro p tt
    simp only [tupleToksGo]
    rw [ih]
    conv_rhs => rw [ih]
    simp

theorem tupleToksGo_length (ws : List String) :
    ∀ p : Tuple, (tupleToksGo [] p ws).length = ws.length + 1 := by
  induction ws with
  | nil => intro p; simp [tupleToksGo]
  | cons w ws ih =>
    intro p
    simp only [tupleToksGo]
    rw [tupleToksGo_acc]
    simp [ih]

theorem tupleToks_length (toks : List String) (n : ℕ) :
    (tupleToks [] toks n).length = toks.length + 1 := by
  rw [tupleToks, tupleToksGo_length]

theorem capp_length (c : ChainLog) (key val : String) :
    (capp c key val).length = c.length + 1 := by
  simp [capp]

theorem Filter_eq_of_inl {n : ℕ} {words : List String} {c c' : ChainLog}
    (h : loop1 n words 0 c = Sum.inl c') : Filter n c words = c' := by
  rw [Filter, h]

theorem Filter_eq_of_inr_inr {n : ℕ} {words : List String} {c a b : ChainLog}
    (h1 : loop1 n words 0 c = Sum.inr a) (h2 : loop2 n words n a = Sum.inr b) :
    Filter n c words = capp b (finalKey n words) "\x00" := by
  rw [Filter, h1]
  simp only []
  rw [h2]

theorem Filter_eq_of_inr_inl {n : ℕ} {words : List String} {c a b : ChainLog}
    {j : Fin words.length}
    (h1 : loop1 n words 0 c = Sum.inr a) (h2 : loop2 n words n a = Sum.inl (j, b)) :
    Filter n c words = Filter n b (words.drop (j.val + 1)) := by
  rw [Filter, h1]
  simp only []
  rw [h2]

theorem loop1_inl (n : ℕ) (words : List String) (hlen : words.length < n) :
    ∀ (m i : ℕ) (c : ChainLog), words.length - i ≤ m → i ≤ words.length →
      ∃ c', loop1 n words i c = Sum.inl c' ∧
        c'.length = c.length + (words.length - i) + 1 := by
  intro m
  induction m with
  | zero =>
    intro i c h1 h2
    have hi : i = words.length := by omega
    rw [loop1, if_pos (by omega), if_pos (by omega)]
    exact ⟨_, rfl, by rw [capp_length]; omega⟩
  | succ m ih =>
    intro i c h1 h2
    rw [loop1, if_pos (by omega)]
    by_cases hle : words.length ≤ i
    · rw [if_pos hle]
      exact ⟨_, rfl, by rw [capp_length]; omega⟩
    · rw [if_neg hle]
      obtain ⟨c', hc', hl'⟩ :=
        ih (i + 1) (capp c (rampKey n words i) (words.getD i "")) (by omega) (by omega)
      exact ⟨c', hc', by rw [hl', capp_length]; omega⟩

theorem loop1_inr (n : ℕ) (words : List String) (hlen : n ≤ words.length) :
    ∀ (m i : ℕ) (c : ChainLog), n - i ≤ m → i ≤ n →
      ∃ c', loop1 n words i c = Sum.inr c' ∧ c'.length = c.length + (n - i) := by
  intro m
  induction m with
  | zero =>
    intro i c h1 h2
    have hi : i = n := by omega
    rw [loop1, if_neg (by omega)]
    exact ⟨c, rfl, by omega⟩
  | succ m ih =>
    intro i c h1 h2
    by_cases hi : i = n
    · rw [loop1, if_neg (by omega)]
      exact ⟨c, rfl, by omega⟩
    · rw [loop1, if_pos (by omega), if_neg (by omega)]
      obtain ⟨c', hc', hl'⟩ :=
        ih (i + 1) (capp c (rampKey n words i) (words.getD i "")) (by omega) (by omega)
      exact ⟨c', hc', by rw [hl', capp_length]; omega⟩

theorem getD_mem_of_lt {words : List String} {i : ℕ} (h : i < words.length) :
    words.getD i "" ∈ words := by
  rw [List.getD_eq_getElem?_getD, List.getElem?_eq_getElem h]
  exact List.getElem_mem h

theorem loop2_inr (n : ℕ) (words : List String) (hne : "" ∉ words) :
    ∀ (m i : ℕ) (c : ChainLog), words.length - i ≤ m →
      ∃ c', loop2 n words i c = Sum.inr c' ∧
        c'.length = c.length + (words.length - i) := by
  intro m
  induction m with
  | zero =>
    intro i c h1
    rw [loop2, dif_neg (by omega)]
    exact ⟨c, rfl, by omega⟩
  | succ m ih =>
    intro i c h1
    by_cases hi : i < words.length
    · have hmem := getD_mem_of_lt hi
      have hgd : ¬ words.getD i "" = "" := fun hc => hne (hc ▸ hmem)
      rw [loop2, dif_pos hi, if_neg hgd]
      obtain ⟨c', hc', hl'⟩ :=
        ih (i + 1) (capp c (midKey n words i) (words.getD i "")) (by omega)
      exact ⟨c', hc', by rw [hl', capp_length]; omega⟩
    · rw [loop2, dif_neg hi]
      exact ⟨c, rfl, by omega⟩

/-- C1: for every order n ≥ 1 and token sequence of length k with no
empty-string tokens, the tuple builder emits exactly k+1 records:
`tupleToks` returns k+1 tuples, and `Filter` appends exactly k+1
occurrence values to the chain map. -/
theorem tuple_count_k_plus_one (n : ℕ) (toks : List String) (c : ChainLog)
    (hn : 1 ≤ n) (hne : "" ∉ toks) :
    (tupleToks [] toks n).length = toks.length + 1 ∧
    (Filter n c toks).length = c.length + (toks.length + 1) := by
  refine ⟨tupleToks_length toks n, ?_⟩
  by_cases hlt : toks.length < n
  · obtain ⟨c', hc', hl'⟩ := loop1_inl n toks hlt toks.length 0 c (by omega) (by omega)
    rw [Filter_eq_of_inl hc']
    omega
  · push_neg at hlt
    obtain ⟨a, ha, hla⟩ := loop1_inr n toks hlt n 0 c (by omega) (by omega)
    obtain ⟨b, hb, hlb⟩ := loop2_inr n toks hne toks.length n a (by omega)
    rw [Filter_eq_of_inr_inr ha hb, capp_length]
    omega

/-- C1 witness: order 2 and the two-token sequence `["hello", "world"]`
starting from the empty chain. -/
theorem tuple_count_k_plus_one_witness :
    1 ≤ 2 ∧ "" ∉ (["hello", "world"] : List String) ∧
    ((tupleToks [] ["hello", "world"] 2).length = 2 + 1 ∧
      (Filter 2 [] ["hello", "world"]).length = 0 + (2 + 1)) :=
  ⟨by decide, by decide, tuple_count_k_plus_one 2 ["hello", "world"] [] (by decide) (by decide)⟩

/-- C5: `Learn` and `Forget` hit the fatal order precondition (`panic`,
modelled by `none`) exactly when the backend's order is below 1; for order
at least 1 neither panics on the order check and each hands the built
tuples to the backend. -/
theorem learn_forget_order_check (order : Int) (tag : String) (toks : List String) :
    (brainLearn order toks = none ↔ order < 1) ∧
    (brainForget order tag toks = none ↔ order < 1) := by
  unfold brainLearn brainForget
  by_cases h : order < 1 <;> simp [h]

/-- C6: `Learn` and `Forget` build their tuple lists with the same tuple
builder: for any order at least 1 the list `Forget` passes to the
backend's `Forget` equals, element for element, the list `Learn` passes
to the backend's `Learn` for the same tokens. -/
theorem forget_tuples_eq_learn_tuples (order : Int) (tag : String)
    (toks : List String) (h : 1 ≤ order) :
    ∃ tt, brainLearn order toks = some tt ∧
      brainForget order tag toks = some (tag, tt) := by
  refine ⟨tupleToks [] toks order.toNat, ?_, ?_⟩ <;>
    simp [brainLearn, brainForget, show ¬ order < 1 by omega]

/-- C6 witness: order 1, tag `"x"`, tokens `["hi"]`. -/
theorem forget_tuples_eq_learn_tuples_witness :
    1 ≤ (1 : Int) ∧ ∃ tt, brainLearn 1 ["hi"] = some tt ∧
      brainForget 1 "x" ["hi"] = some ("x", tt) :=
  ⟨by decide, forget_tuples_eq_learn_tuples 1 "x" ["hi"] (by decide)⟩

/-- C7: the canonicalizer is idempotent and maps the empty sentinel to
itself, both for the v1 engine's `strings.ToLower` and for the v2
`ReduceEntropy`. -/
theorem canon_idempotent_sentinel :
    (∀ t : String, strLower (strLower t) = strLower t) ∧ strLower "" = "" ∧
    (∀ t : String, ReduceEntropy (ReduceEntropy t) = ReduceEntropy t) ∧
    ReduceEntropy "" = "" :=
  ⟨strLower_idem, rfl, fun t => strLower_idem t, rfl⟩

theorem loop1_frame (n : ℕ) (words : List String) :
    ∀ (m i : ℕ) (a b : ChainLog), n - i ≤ m →
      loop1 n words i (a ++ b) =
        Sum.map (fun x => a ++ x) (fun x => a ++ x) (loop1 n words i b) := by
  intro m
  induction m with
  | zero =>
    intro i a b h1
    conv_lhs => rw [loop1]
    conv_rhs => rw [loop1]
    rw [if_neg (show ¬ i < n by omega), if_neg (show ¬ i < n by omega)]
    rfl
  | succ m ih =>
    intro i a b h1
    conv_lhs => rw [loop1]
    conv_rhs => rw [loop1]
    by_cases hi : i < n
    · rw [if_pos hi, if_pos hi]
      by_cases hle : words.length ≤ i
      · rw [if_pos hle, if_pos hle]
        simp [capp]
      · rw [if_neg hle, if_neg hle]
        rw [show capp (a ++ b) (rampKey n words i) (words.getD i "")
            = a ++ capp b (rampKey n words i) (words.getD i "") by simp [capp]]
        exact ih (i + 1) a _ (by omega)
    · rw [if_neg hi, if_neg hi]
      rfl

theorem loop2_frame (n : ℕ) (words : List String) :
    ∀ (m i : ℕ) (a b : ChainLog), words.length - i ≤ m →
      loop2 n words i (a ++ b) =
        Sum.map (fun p => (p.1, a ++ p.2)) (fun x => a ++ x) (loop2 n words i b) := by
  intro m
  induction m with
  | zero =>
    intro i a b h1
    conv_lhs => rw [loop2]
    conv_rhs => rw [loop2]
    rw [dif_neg (show ¬ i < words.length by omega),
      dif_neg (show ¬ i < words.length by omega)]
    rfl
  | succ m ih =>
    intro i a b h1
    conv_lhs => rw [loop2]
    conv_rhs => rw [loop2]
    by_cases hi : i < words.length
    · rw [dif_pos hi, dif_pos hi]
      by_cases hgd : words.getD i "" = ""
      · rw [if_pos hgd, if_pos hgd]
        by_cases hlast : i < words.length - 1
        · rw [if_pos hlast, if_pos hlast]
          rfl
        · rw [if_neg hlast, if_neg hlast]
          rfl
      · rw [if_neg hgd, if_neg hgd]
        rw [show capp (a ++ b) (midKey n words i) (words.getD i "")
            = a ++ capp b (midKey n words i) (words.getD i "") by simp [capp]]
        exact ih (i + 1) a _ (by omega)
    · rw [dif_neg hi, dif_neg hi]
      rfl

theorem Filter_frame :
    ∀ (len : ℕ) (words : List String), words.length ≤ len →
      ∀ (n : ℕ) (a b : ChainLog), Filter n (a ++ b) words = a ++ Filter n b words := by
  intro len
  induction len with
  | zero =>
    intro words hlen n a b
    cases h1 : loop1 n words 0 b with
    | inl c' =>
      have h1' : loop1 n words 0 (a ++ b) = Sum.inl (a ++ c') := by
        rw [loop1_frame n words n 0 a b (by omega), h1]
        rfl
      rw [Filter_eq_of_inl h1', Filter_eq_of_inl h1]
    | inr c' =>
      have h1' : loop1 n words 0 (a ++ b) = Sum.inr (a ++ c') := by
        rw [loop1_frame n words n 0 a b (by omega), h1]
        rfl
      cases h2 : loop2 n words n c' with
      | inl jc =>
        exact absurd (Nat.lt_of_lt_of_le jc.1.isLt hlen) (Nat.not_lt_zero _)
      | inr c'' =>
        have h2' : loop2 n words n (a ++ c') = Sum.inr (a ++ c'') := by
          rw [loop2_frame n words words.length n a c' (by omega), h2]
          rfl
        rw [Filter_eq_of_inr_inr h1' h2', Filter_eq_of_inr_inr h1 h2]
        simp [capp]
  | succ len ih =>
    intro words hlen n a b
    cases h1 : loop1 n words 0 b with
    | inl c' =>
      have h1' : loop1 n words 0 (a ++ b) = Sum.inl (a ++ c') := by
        rw [loop1_frame n words n 0 a b (by omega), h1]
        rfl
      rw [Filter_eq_of_inl h1', Filter_eq_of_inl h1]
    | inr c' =>
      have h1' : loop1 n words 0 (a ++ b) = Sum.inr (a ++ c') := by
        rw [loop1_frame n words n 0 a b (by omega), h1]
        rfl
      cases h2 : loop2 n words n c' with
      | inl jc =>
        obtain ⟨j, c''⟩ := jc
        have h2' : loop2 n words n (a ++ c') = Sum.inl (j, a ++ c'') := by
          rw [loop2_frame n words words.length n a c' (by omega), h2]
          rfl
        rw [Filter_eq_of_inr_inl h1' h2', Filter_eq_of_inr_inl h1 h2]
        exact ih (words.drop (j.val + 1)) (by simp only [List.length_drop]; omega) n a c''
      | inr c'' =>
        have h2' : loop2 n words n (a ++ c') = Sum.inr (a ++ c'') := by
          rw [loop2_frame n words words.length n a c' (by omega), h2]
          rfl
        rw [Filter_eq_of_inr_inr h1' h2', Filter_eq_of_inr_inr h1 h2]
        simp [capp]

theorem lookupLog_append (c t : ChainLog) (key : String) :
    lookupLog (c ++ t) key = lookupLog c key ++ lookupLog t key := by
  simp [lookupLog]

/-- C10: learning is append-only and order preserving: for every chain
map, key and `Filter` call, the occurrence list stored under the key
before the call is a prefix of the list stored after it; `Filter` only
appends new occurrences at the end, so each key's occurrences stay in
oldest-first order. -/
theorem filter_append_only (n : ℕ) (c : ChainLog) (words : List String) (key : String) :
    lookupLog c key <+: lookupLog (Filter n c words) key := by
  have h : Filter n c words = c ++ Filter n [] words := by
    have h0 := Filter_frame words.length words le_rfl n c []
    simpa using h0
  rw [h, lookupLog_append]
  exact ⟨_, rfl⟩

theorem count_range_getD (ws : List String) :
    ∀ v : String,
      (List.range ws.length).countP (fun r => ws.getD r "" == v) = ws.count v := by
  induction ws with
  | nil => intro v; simp
  | cons x t ih =>
    intro v
    rw [List.length_cons, List.range_succ_eq_map, List.countP_cons, List.countP_map]
    have hfun : ((fun r => (x :: t).getD r "" == v) ∘ Nat.succ)
        = (fun r => t.getD r "" == v) := by
      funext r
      simp [Function.comp, Nat.succ_eq_add_one]
    rw [hfun, ih v, List.count_cons]
    rfl

theorem mod_self_lt (r : ℕ) {ws : List String} (h : ws ≠ []) : r % ws.length < ws.length :=
  Nat.mod_lt _ (List.length_pos.mpr h)

theorem sampleNext_mem (ws : List String) (r : ℕ) (h : ws ≠ []) : sampleNext ws r ∈ ws := by
  rw [sampleNext]
  exact getD_mem_of_lt (mod_self_lt r h)

/-- C4: at each generation step the next suffix is drawn uniformly over
the occurrence multiset: the number of equally likely index draws that
yield a value `v` equals the multiset count of `v` in the looked-up
occurrence list, and each `c[key] = append(c[key], v)` performed by
`Filter` adds exactly one entry at the end of that key's list, so
duplicates are preserved with multiplicity. -/
theorem uniform_occurrence_sampling :
    (∀ (ws : List String) (v : String),
      ((List.range ws.length).filter (fun r => sampleNext ws r == v)).length = ws.count v) ∧
    (∀ (c : ChainLog) (key v k : String),
      lookupLog (capp c key v) k =
        if k = key then lookupLog c k ++ [v] else lookupLog c k) := by
  constructor
  · intro ws v
    rw [List.filter_congr (fun r hr => ?_), ← List.countP_eq_length_filter,
      count_range_getD ws v]
    rw [sampleNext, Nat.mod_eq_of_lt (List.mem_range.mp hr)]
  · intro c key v k
    by_cases h : k = key
    · subst h
      simp [lookupLog, capp]
    · rw [if_neg h]
      simp only [lookupLog, capp, List.filter_append, List.map_append]
      rw [List.filter_cons]
      simp [show ¬ (key == k) = true by simpa using fun hc => h hc.symm]

/-- C8: generating from an untrained starting prefix is a normal outcome:
when the chain has no recorded transitions for the canonicalized starting
word, `Walk` returns the empty string without any error or panic. -/
theorem walk_untrained_returns_empty (c : String → List String) (choices : ℕ → ℕ)
    (word : String) (fuel : ℕ) (h : c (strLower word) = []) :
    walkAux c choices (fuel + 1) 0 (initWalk word) = some (WalkResult.ret "") := by
  rw [walkAux]
  simp only [initWalk, h]
  rfl

/-- C8 witness: the empty chain map and the order-2 starting window. -/
theorem walk_untrained_returns_empty_witness :
    ((fun _ : String => ([] : List String)) (strLower "\x01 \x01 ") = []) ∧
    walkAux (fun _ => []) (fun _ => 0) 1 0 (initWalk "\x01 \x01 ")
      = some (WalkResult.ret "") :=
  ⟨rfl, walk_untrained_returns_empty (fun _ => []) (fun _ => 0) "\x01 \x01 " 0 rfl⟩

theorem walk_cex_none (choices : ℕ → ℕ) :
    ∀ fuel k : ℕ, walkAux cexChain choices fuel k ⟨"\x01 \x01", 0, []⟩ = none := by
  intro fuel
  induction fuel with
  | zero => intro k; rfl
  | succ f ih =>
    intro k
    have h1 : cexChain (strLower "\x01 \x01") = ["\x01"] := by decide
    have h2 : ∀ r : ℕ, sampleNext ["\x01"] r = "\x01" := by
      intro r
      rw [sampleNext]
      norm_num [Nat.mod_one]
    have h3 : updateWord "\x01 \x01" "\x01" = some "\x01 \x01" := by decide
    rw [walkAux]
    simp only [h1, h2, h3]
    rw [if_pos trivial]
    exact ih (k + 1)

/-- C3 counterexample: the claimed chain-independent iteration bound does
not exist.  On `cexChain` (reachable by `Filter 2` from a message of
literal `"\x01"` tokens) a walk starting at `"\x01 \x01"` samples the
`"\x01"` occurrence forever: it is skipped without increasing `sum`, and
the window slides back to the same key, so no fuel ever suffices. -/
theorem walk_not_uniformly_bounded :
    ¬ ∃ B : ℕ, ∀ (c : String → List String) (choices : ℕ → ℕ) (word : String),
        (walkAux c choices B 0 (initWalk word)).isSome := by
  rintro ⟨B, h⟩
  have hc := h cexChain (fun _ => 0) "\x01 \x01"
  rw [show initWalk "\x01 \x01" = ⟨"\x01 \x01", 0, []⟩ from rfl,
    walk_cex_none (fun _ => 0) B 0] at hc
  simp at hc

theorem walk_fuel_sufficient (c : String → List String) (choices : ℕ → ℕ)
    (hskip : ∀ key, "\x01" ∉ c key) :
    ∀ fuel : ℕ, 1 ≤ fuel → ∀ (k : ℕ) (st : WalkState), 401 ≤ st.sum + fuel →
      (walkAux c choices fuel k st).isSome := by
  intro fuel
  induction fuel with
  | zero => intro h; omega
  | succ f ih =>
    intro _ k st hsum
    rw [walkAux]
    by_cases h400 : st.sum < 400
    · rw [if_pos h400]
      by_cases hws : c (strLower st.word) = []
      · simp [hws]
      · rw [if_neg hws]
        by_cases hnul : sampleNext (c (strLower st.word)) (choices k) = "\x00"
        · simp [hnul]
        · rw [if_neg hnul]
          have hmem := sampleNext_mem (c (strLower st.word)) (choices k) hws
          have hskip' : ¬ sampleNext (c (strLower st.word)) (choices k) = "\x01" :=
            fun hc => hskip (strLower st.word) (hc ▸ hmem)
          cases hupd : updateWord st.word (sampleNext (c (strLower st.word)) (choices k)) with
          | none => simp [hupd]
          | some w' =>
            simp only [hupd]
            rw [if_neg hskip']
            refine ih (by omega) (k + 1) _ ?_
            show 401 ≤ st.sum
              + goStrLen (sampleNext (c (strLower st.word)) (choices k)) + 1 + f
            omega
    · rw [if_neg h400]
      simp

/-- C3 amended: on every chain map whose occurrence lists never contain
the skip token `"\x01"`, the walk loop executes at most 401 iterations,
for every starting word and every sequence of random choices: within that
bound it has finished, either by returning or by the slice-bound panic a
zero-field word raises (modelled explicitly by `WalkResult.panic`).  Each
iteration that continues adds at least one byte to `sum`, which the loop
bounds by 400. -/
theorem walk_bounded_without_skip_token (c : String → List String)
    (choices : ℕ → ℕ) (word : String) (hskip : ∀ key, "\x01" ∉ c key) :
    (walkAux c choices 401 0 (initWalk word)).isSome :=
  walk_fuel_sufficient c choices hskip 401 (by norm_num) 0 (initWalk word) (by norm_num [initWalk])

/-- C3 amended witness: the empty chain map, constant choices, and the
order-2 start window. -/
theorem walk_bounded_without_skip_token_witness :
    (∀ key, "\x01" ∉ (fun _ : String => ([] : List String)) key) ∧
    (walkAux (fun _ => []) (fun _ => 0) 401 0 (initWalk "\x01 \x01 ")).isSome :=
  ⟨fun _ => List.not_mem_nil _,
    walk_bounded_without_skip_token (fun _ => []) (fun _ => 0) "\x01 \x01 "
      (fun _ => List.not_mem_nil _)⟩

theorem chainPref_length (pre : List String) (suf : String) (h : 1 ≤ pre.length) :
    (chainPref pre suf).length = pre.length := by
  simp only [chainPref, List.length_append, List.length_drop, List.length_cons,
    List.length_nil]
  omega

theorem tupleToksGo_closed :
    ∀ (ws pre : List String) (suf : String), 1 ≤ pre.length →
      tupleToksGo [] ⟨pre, suf⟩ ws =
        (List.range (ws.length + 1)).map (fun i =>
          ⟨(pre ++ (((suf :: ws).take (i + 1)).map ReduceEntropy)).drop (i + 1),
            ws.getD i ""⟩) := by
  intro ws
  induction ws with
  | nil =>
    intro pre suf hpre
    simp only [tupleToksGo, List.nil_append, List.length_nil, Nat.zero_add]
    rw [show List.range 1 = [0] from rfl]
    simp only [List.map_cons, List.map_nil, List.take_succ_cons, List.take_zero,
      List.getD_nil]
    rw [chainPref, List.drop_append_of_le_length hpre]
  | cons w ws ih =>
    intro pre suf hpre
    simp only [tupleToksGo]
    rw [tupleToksGo_acc]
    rw [ih (chainPref pre suf) w (by rw [chainPref_length pre suf hpre]; omega)]
    conv_rhs => rw [List.length_cons, List.range_succ_eq_map, List.map_cons, List.map_map]
    simp only [List.nil_append, List.cons_append]
    congr 1
    · simp only [List.take_succ_cons, List.take_zero, List.map_cons, List.map_nil,
        List.getD_cons_zero]
      rw [chainPref, List.drop_append_of_le_length hpre]
    · apply List.map_congr_left
      intro i hi
      simp only [Function.comp, Nat.succ_eq_add_one, List.take_succ_cons, List.map_cons,
        List.getD_cons_succ]
      congr 1
      rw [chainPref]
      rw [show i + 1 + 1 = 1 + (i + 1) from by omega]
      conv_rhs => rw [← List.drop_drop, List.drop_append_of_le_length hpre]
      simp [List.append_assoc]

theorem map_range_getD {α : Type} (f : ℕ → α) (m i : ℕ) (d : α) (h : i < m) :
    ((List.range m).map f).getD i d = f i := by
  rw [List.getD_eq_getElem?_getD, List.getElem?_map, List.getElem?_range h]
  rfl

theorem tupleToks_getD (n : ℕ) (toks : List String) (hn : 1 ≤ n) (i : ℕ)
    (hi : i ≤ toks.length) :
    (tupleToks [] toks n).getD i ⟨[], ""⟩ =
      ⟨(List.replicate (n + 1) "" ++ ((toks.take i).map ReduceEntropy)).drop (i + 1),
        toks.getD i ""⟩ := by
  rw [tupleToks, tupleToksGo_closed toks (List.replicate n "") "" (by simp [hn]),
    map_range_getD _ _ _ _ (by omega)]
  congr 2
  rw [List.take_succ_cons, List.map_cons, show ReduceEntropy "" = "" from rfl,
    List.replicate_succ']
  simp [List.append_assoc]

/-- C2: shape of the tuple list for order n ≥ 1 and a token sequence of
length k ≥ n with no empty tokens: every prefix has width exactly n; the
first n tuples form the entry ramp, tuple i carrying n−i sentinel slots
followed by the first i canonicalized tokens (hence exactly i non-sentinel
entries) with the i-th token as suffix; and the final tuple carries the
last n canonicalized tokens with the empty sentinel as suffix. -/
theorem tuple_ramp_shape (n : ℕ) (toks : List String) (hn : 1 ≤ n)
    (hk : n ≤ toks.length) (hne : "" ∉ toks) :
    (∀ j < (tupleToks [] toks n).length,
      ((tupleToks [] toks n).getD j ⟨[], ""⟩).pfx.length = n) ∧
    (∀ i < n,
      (tupleToks [] toks n).getD i ⟨[], ""⟩ =
        ⟨List.replicate (n - i) "" ++ (toks.take i).map ReduceEntropy,
          toks.getD i ""⟩ ∧
      ((tupleToks [] toks n).getD i ⟨[], ""⟩).pfx.countP (fun s => !(s == "")) = i) ∧
    (tupleToks [] toks n).getD toks.length ⟨[], ""⟩ =
      ⟨(toks.drop (toks.length - n)).map ReduceEntropy, ""⟩ := by
  refine ⟨?_, ?_, ?_⟩
  · intro j hj
    rw [tupleToks_length] at hj
    rw [tupleToks_getD n toks hn j (by omega)]
    show ((List.replicate (n + 1) "" ++
      ((toks.take j).map ReduceEntropy)).drop (j + 1)).length = n
    simp only [List.length_drop, List.length_append, List.length_replicate,
      List.length_map, List.length_take]
    omega
  · intro i hin
    have hpre : ((tupleToks [] toks n).getD i ⟨[], ""⟩).pfx
        = List.replicate (n - i) "" ++ (toks.take i).map ReduceEntropy := by
      rw [tupleToks_getD n toks hn i (by omega)]
      show (List.replicate (n + 1) "" ++
        ((toks.take i).map ReduceEntropy)).drop (i + 1) = _
      rw [List.drop_append_of_le_length (by simp; omega), List.drop_replicate,
        show n + 1 - (i + 1) = n - i from by omega]
    have hsuf : ((tupleToks [] toks n).getD i ⟨[], ""⟩).Suffix = toks.getD i "" := by
      rw [tupleToks_getD n toks hn i (by omega)]
    constructor
    · rw [show ((tupleToks [] toks n).getD i ⟨[], ""⟩)
          = ⟨((tupleToks [] toks n).getD i ⟨[], ""⟩).pfx,
            ((tupleToks [] toks n).getD i ⟨[], ""⟩).Suffix⟩ from rfl, hpre, hsuf]
    · rw [hpre, List.countP_append]
      have h0 : (List.replicate (n - i) "").countP (fun s : String => !(s == "")) = 0 :=
        List.countP_eq_zero.mpr (fun a ha => by rw [List.eq_of_mem_replicate ha]; decide)
      have h1 : ((toks.take i).map ReduceEntropy).countP
          (fun s : String => !(s == "")) = ((toks.take i).map ReduceEntropy).length := by
        rw [List.countP_eq_length]
        intro a ha
        obtain ⟨y, hy, rfl⟩ := List.mem_map.mp ha
        have hyne : y ≠ "" := fun hc => hne (hc ▸ List.mem_of_mem_take hy)
        simpa using strLower_ne_empty hyne
      rw [h0, h1]
      simp only [List.length_map, List.length_take]
      omega
  · rw [tupleToks_getD n toks hn toks.length le_rfl]
    congr 1
    · show (List.replicate (n + 1) "" ++
        ((toks.take toks.length).map ReduceEntropy)).drop (toks.length + 1) = _
      rw [List.take_length, List.map_drop]
      rw [show toks.length + 1
          = (List.replicate (n + 1) ("" : String)).length + (toks.length - n) from
        by simp; omega]
      rw [List.drop_append]
    · show toks.getD toks.length "" = ""
      rw [List.getD_eq_getElem?_getD, List.getElem?_eq_none le_rfl]
      rfl

/-- C2 witness: order 1 and the single-token sequence `["hi"]`. -/
theorem tuple_ramp_shape_witness :
    1 ≤ 1 ∧ 1 ≤ (["hi"] : List String).length ∧ "" ∉ (["hi"] : List String) ∧
    ((∀ j < (tupleToks [] ["hi"] 1).length,
        ((tupleToks [] ["hi"] 1).getD j ⟨[], ""⟩).pfx.length = 1) ∧
      (∀ i < 1,
        (tupleToks [] ["hi"] 1).getD i ⟨[], ""⟩ =
          ⟨List.replicate (1 - i) "" ++ ((["hi"] : List String).take i).map ReduceEntropy,
            (["hi"] : List String).getD i ""⟩ ∧
        ((tupleToks [] ["hi"] 1).getD i ⟨[], ""⟩).pfx.countP (fun s => !(s == "")) = i) ∧
      (tupleToks [] ["hi"] 1).getD (["hi"] : List String).length ⟨[], ""⟩ =
        ⟨((["hi"] : List String).drop ((["hi"] : List String).length - 1)).map ReduceEntropy,
          ""⟩) :=
  ⟨by decide, by decide, by decide, tuple_ramp_shape 1 ["hi"] (by decide) (by decide) (by decide)⟩

/-- C9: concrete tuple-builder traces: order 1 on `["hi"]` and order 2 on
`["hello", "world"]` produce exactly the spec's tuple lists, in order. -/
theorem tupleToks_concrete_traces :
    tupleToks [] ["hi"] 1 = [⟨[""], "hi"⟩, ⟨["hi"], ""⟩] ∧
    tupleToks [] ["hello", "world"] 2 =
      [⟨["", ""], "hello"⟩, ⟨["", "hello"], "world"⟩, ⟨["hello", "world"], ""⟩] := by
  exact ⟨by decide, by decide⟩

end Robot
